import Mathlib

/-!
Verification development for the Aven document-to-index ingestion pipeline.

Python strings are modelled as `List Char`; Python dictionaries with a fixed
field set are modelled as structures.  Remote services (the Gemini embedding
endpoint and the ChromaDB cloud store) are external black boxes: the embedding
call is a parameter `embedF : T → Option (List α)` (`none` models a raised
exception), and the store operations are modelled from the specified boundary
(keyed overwrite on `add`, `count` = number of stored items).
-/

/-- The whitespace class used by Python `str.strip`, `str.split` and the
regex class `\s` (ASCII range): space, tab, newline, carriage return,
vertical tab and form feed. -/
def isWS (c : Char) : Bool :=
  c == ' ' || c == '\t' || c == '\n' || c == '\r' || c == '\x0b' || c == '\x0c'

/-- Negation of `isWS`, for `takeWhile` and `dropWhile` scans. -/
def notWS (c : Char) : Bool := !isWS c

/-- `leadsList n h` is true when `n` is an initial segment of `h`
(used to implement the Python substring operator). -/
def leadsList : List Char → List Char → Bool
  | [], _ => true
  | _ :: _, [] => false
  | a :: as, b :: bs => a == b && leadsList as bs

/-- Python substring containment `needle in hay`. -/
def hasSub (needle : List Char) : List Char → Bool
  | [] => needle.isEmpty
  | c :: cs => leadsList needle (c :: cs) || hasSub needle cs

/-- Python `s.endswith(suffix)`. -/
def endsList (suffix : List Char) (s : List Char) : Bool :=
  leadsList suffix.reverse s.reverse

/-- Python `s.lower()` (ASCII case folding, which covers the data fed to it). -/
def lowerL (s : List Char) : List Char := s.map Char.toLower

/-- Python `s.strip()`: drop whitespace from both ends. -/
def trimWS (s : List Char) : List Char :=
  ((s.dropWhile isWS).reverse.dropWhile isWS).reverse

/-- One raw crawled page, the element shape of `page_info`
(`item.get` defaults of the source become ordinary fields). -/
structure RawPage where
  url : List Char
  title : List Char
  content : List Char
deriving DecidableEq

/-- Sentinel phrase of corrupted crawls (data_preprocessor.py line 36). -/
def interferenceSentinel : List Char := "network appears to interfere".toList

/-- Root domain substring kept by the filter (line 40). -/
def avenDomain : List Char := "aven.com".toList

/-- Substring marking staging URLs (line 44). -/
def stagingMark : List Char := "staging".toList

/-- Substring marking internal crypto pages (line 48). -/
def internalCryptoMark : List Char := "internal/crypto".toList

/-- Document file extension tolerated with an empty title (line 52). -/
def pdfSuffix : List Char := ".pdf".toList

/-- `AvenDataPreprocessor.filter_relevant_content` (data_preprocessor.py
lines 22-57): the loop with its six `continue` rules, in source order. -/
def filter_relevant_content : List RawPage → List RawPage
  | [] => []
  | item :: rest =>
    -- Skip empty content
    if item.content.isEmpty || (trimWS item.content).isEmpty then
      filter_relevant_content rest
    -- Skip network interference messages
    else if hasSub interferenceSentinel (lowerL item.content) then
      filter_relevant_content rest
    -- Skip non-Aven domains
    else if !item.url.isEmpty && !hasSub avenDomain (lowerL item.url) then
      filter_relevant_content rest
    -- Skip staging/development URLs
    else if hasSub stagingMark (lowerL item.url) then
      filter_relevant_content rest
    -- Skip internal/crypto pages
    else if hasSub internalCryptoMark (lowerL item.url) then
      filter_relevant_content rest
    -- Skip empty titles for non-document pages
    else if item.title.isEmpty && !endsList pdfSuffix item.url then
      filter_relevant_content rest
    else item :: filter_relevant_content rest

/-- The retention rule of claim C2, written as the claim states it: content
non-empty after trimming, no interference sentinel (case-insensitive), url
(when non-empty) contains the root domain, url contains neither the staging
nor the internal/crypto substring, and the title is non-empty unless the url
ends with ".pdf". -/
def c2Keep (p : RawPage) : Bool :=
  !(trimWS p.content).isEmpty
    && !hasSub interferenceSentinel (lowerL p.content)
    && (p.url.isEmpty || hasSub avenDomain (lowerL p.url))
    && !hasSub stagingMark (lowerL p.url)
    && !hasSub internalCryptoMark (lowerL p.url)
    && (!p.title.isEmpty || endsList pdfSuffix p.url)

/-- Regex replacement `re.sub(p+, r, s)` for a single-character class `p`:
every maximal run of characters satisfying `p` becomes the single
character `r`.  Instantiated at `\s+ → " "`, `\n+ → " "`, `\t+ → " "`. -/
def collapseRuns (p : Char → Bool) (r : Char) : List Char → List Char
  | [] => []
  | c :: cs =>
    if p c then r :: collapseRuns p r (cs.dropWhile p)
    else c :: collapseRuns p r cs
termination_by l => l.length
decreasing_by
  · exact Nat.lt_succ_of_le (List.dropWhile_suffix p).sublist.length_le
  · simp

/-- Character class `[^>]`, the inner part of the tag regex. -/
def notGt (d : Char) : Bool := d != '>'

/-- Regex replacement of `<[^>]+>` by the empty string
(data_preprocessor.py line 72): at a `<` whose following text holds at least
one non-`>` character before a `>`, the whole span through that first `>` is
removed and scanning resumes after it; a `<` with no such match is kept. -/
def removeTags : List Char → List Char
  | [] => []
  | c :: cs =>
    if c = '<' ∧ cs.takeWhile notGt ≠ [] ∧ cs.dropWhile notGt ≠ [] then
      removeTags (cs.dropWhile notGt).tail
    else c :: removeTags cs
termination_by l => l.length
decreasing_by
  · have h1 : (cs.dropWhile notGt).length ≤ cs.length :=
      (List.dropWhile_suffix notGt).sublist.length_le
    have h2 : (cs.dropWhile notGt).tail.length = (cs.dropWhile notGt).length - 1 :=
      List.length_tail _
    simp only [List.length_cons]
    omega
  · simp

/-- The character allowlist of `re.sub(r'[^\w\s...]', '', s)`
(data_preprocessor.py line 75): word characters, whitespace, and the fixed
punctuation list. -/
def allowedChar (c : Char) : Bool :=
  c.isAlphanum || c == '_' || isWS c ||
    c == '.' || c == ',' || c == '!' || c == '?' || c == ':' || c == ';' ||
    c == '-' || c == '(' || c == ')' || c == '$' || c == '%'

/-- Final emptiness check of `clean_content` (lines 77-79):
`if not content or content.isspace(): return ""`. -/
def cleanFinal (s : List Char) : List Char :=
  if s.isEmpty || s.all isWS then [] else s

/-- Predicate for the `\n+` pass. -/
def nlP (c : Char) : Bool := c == '\n'

/-- Predicate for the `\t+` pass. -/
def tabP (c : Char) : Bool := c == '\t'

/-- `AvenDataPreprocessor.clean_content` (data_preprocessor.py lines 59-81):
strip and collapse whitespace, collapse newline and tab runs, strip
angle-bracket tag spans, drop disallowed characters, and map an empty or
all-whitespace result to the empty string. -/
def clean_content (content : List Char) : List Char :=
  if content.isEmpty then []
  else
    cleanFinal
      (List.filter allowedChar
        (removeTags
          (collapseRuns tabP ' '
            (collapseRuns nlP ' '
              (collapseRuns isWS ' ' (trimWS content))))))

/-- Category label constants returned by the categorizer. -/
def educationLabel : String := "education"

def supportLabel : String := "support"

def legalDocumentLabel : String := "legal_document"

def privacyPolicyLabel : String := "privacy_policy"

def accountManagementLabel : String := "account_management"

def signupLabel : String := "signup"

def productInfoLabel : String := "product_info"

/-- Keyword constants scanned by the categorizer. -/
def educationKw : List Char := "education".toList

def supportKw : List Char := "support".toList

def helpKw : List Char := "help".toList

def docsKw : List Char := "docs".toList

def privacyKw : List Char := "privacy".toList

def loginKw : List Char := "login".toList

def myAvenKw : List Char := "my.aven".toList

def joinKw : List Char := "join".toList

/-- `AvenDataPreprocessor.categorize_content` (data_preprocessor.py lines
83-101): first matching keyword rule over the lower-cased url and title wins;
the content argument is accepted and ignored, as in the source. -/
def categorize_content (url title _content : List Char) : String :=
  let url_lower := lowerL url
  let title_lower := lowerL title
  if hasSub educationKw url_lower || hasSub educationKw title_lower then educationLabel
  else if hasSub supportKw url_lower || hasSub helpKw title_lower then supportLabel
  else if hasSub pdfSuffix url_lower || hasSub docsKw url_lower then legalDocumentLabel
  else if hasSub privacyKw url_lower || hasSub privacyKw title_lower then privacyPolicyLabel
  else if hasSub loginKw url_lower || hasSub myAvenKw url_lower then accountManagementLabel
  else if hasSub joinKw url_lower then signupLabel
  else productInfoLabel

/-- `AvenDataPreprocessor.chunk_content` (data_preprocessor.py lines
138-142): the size parameters are accepted and ignored and the whole content
comes back as a single chunk. -/
def chunk_content (content : List Char)
    (_min_chunk_size _max_chunk_size _overlap : Nat) : List (List Char) :=
  [content]

/-- Python `s.split()` (no separator): whitespace-run splitting with empty
pieces discarded, used for the word counts of `process_data`. -/
def words (s : List Char) : List (List Char) :=
  if h : (s.dropWhile isWS).isEmpty then []
  else
    (s.dropWhile isWS).takeWhile notWS ::
      words ((s.dropWhile isWS).dropWhile notWS)
termination_by s.length
decreasing_by
  rcases hd : s.dropWhile isWS with _ | ⟨c, cs⟩
  · rw [hd] at h
    simp at h
  · have hlen : (s.dropWhile isWS).length ≤ s.length :=
      (List.dropWhile_suffix isWS).sublist.length_le
    have hc : isWS c = false := by
      have := List.head?_dropWhile_not isWS s
      rw [hd] at this
      simpa using this
    have hdrop : List.dropWhile notWS (c :: cs) = cs.dropWhile notWS := by
      rw [List.dropWhile_cons, if_pos (by simp [notWS, hc])]
    have hcs : (cs.dropWhile notWS).length ≤ cs.length :=
      (List.dropWhile_suffix notWS).sublist.length_le
    rw [hdrop]
    have hlt : cs.length < s.length := by
      rw [hd] at hlen
      simp only [List.length_cons] at hlen
      omega
    omega

/-- Decimal digit character, `48 + d` in code point. -/
def digitChar (d : Nat) : Char := Char.ofNat (48 + d)

/-- Decimal representation of a natural number as a character list,
the Python `str(n)` used inside the id f-string. -/
def decRepr (n : Nat) : List Char :=
  if h : n < 10 then [digitChar n]
  else decRepr (n / 10) ++ [digitChar (n % 10)]
termination_by n
decreasing_by
  exact Nat.div_lt_self (by omega) (by omega)

/-- The id f-string of `process_data` (data_preprocessor.py line 177):
`f"{url}_{len(self.processed_data)}"`. -/
def unique_id (url : List Char) (counter : Nat) : List Char :=
  url ++ '_' :: decRepr counter

/-- The nested metadata dictionary of a processed item (data_preprocessor.py
lines 182-191).  The type `F` stands for the financial-info dictionary built
by `extract_financial_info`, carried opaquely: no verified claim reads it,
and `process_data` is proved for every extractor. -/
structure ItemMetadata (F : Type) where
  url : List Char
  title : List Char
  category : String
  chunk_index : Nat
  total_chunks : Nat
  chunk_size : Nat
  word_count : Nat
  financial_info : F

/-- One element of the processed-data collection (data_preprocessor.py
lines 179-192). -/
structure ProcessedItem (F : Type) where
  id : List Char
  content : List Char
  metadata : ItemMetadata F

/-- The inner chunk loop of `process_data` (data_preprocessor.py lines
175-194): items are appended one by one, each id taking the accumulator
length at the moment of its append as its counter. -/
def appendChunkItems {F : Type} (url title : List Char) (category : String)
    (fin : F) (chunks : List (List Char)) (acc : List (ProcessedItem F)) :
    List (ProcessedItem F) :=
  chunks.enum.foldl
    (fun a ic =>
      a ++ [{ id := unique_id url a.length
              content := ic.2
              metadata :=
                { url := url, title := title, category := category
                  chunk_index := ic.1, total_chunks := chunks.length
                  chunk_size := ic.2.length
                  word_count := (words ic.2).length
                  financial_info := fin } }])
    acc

/-- `AvenDataPreprocessor.process_data` (data_preprocessor.py lines 144-196)
on already-loaded raw data, starting from the empty accumulator of a fresh
preprocessor: filter, clean, drop pages under ten cleaned words, categorize,
extract (abstract `extract`), chunk, and append id-numbered items. -/
def process_data {F : Type} (extract : List Char → F)
    (min_chunk_size max_chunk_size overlap : Nat) (raw : List RawPage) :
    List (ProcessedItem F) :=
  (filter_relevant_content raw).foldl
    (fun acc item =>
      let cleaned := clean_content item.content
      if (words cleaned).length < 10 then acc
      else
        appendChunkItems item.url item.title
          (categorize_content item.url item.title cleaned)
          (extract cleaned)
          (chunk_content cleaned min_chunk_size max_chunk_size overlap)
          acc)
    []

/-- Outcomes of opening and parsing the input file in `load_data`. -/
inductive LoadError where
  | missingFile
  | malformedJson

/-- Element shape of the root JSON array consumed by `load_data`:
element 0 carries the `page_info` array. -/
structure PageInfoBlock where
  page_info : List RawPage

/-- `AvenDataPreprocessor.load_data` (data_preprocessor.py lines 12-20):
a raised open/parse error is caught, reported, and turned into the empty
collection; an empty root array also yields the empty collection; otherwise
the `page_info` field of element 0 is returned. -/
def load_data (source : Except LoadError (List PageInfoBlock)) : List RawPage :=
  match source with
  | Except.error _ => []
  | Except.ok [] => []
  | Except.ok (b :: _) => b.page_info

/-- `GeminiEmbeddingGenerator.generate_embedding` (gemini_embedding_generator.py
lines 40-47): one remote call; a raised error is caught and becomes the
empty vector.  The remote endpoint is the parameter `embedF` (a deterministic
mock in the sense of the testable properties of the spec). -/
def generate_embedding {T α : Type} (embedF : T → Option (List α)) (text : T) :
    List α :=
  match embedF text with
  | some v => v
  | none => []

/-- The `try` body of the batch loop (lines 56-63): one call per text, in
order, aborting at the first raised error with all partial results of the
batch discarded. -/
def tryBatch {T α : Type} (embedF : T → Option (List α)) :
    List T → Option (List (List α))
  | [] => some []
  | t :: ts =>
    match embedF t with
    | none => none
    | some v =>
      match tryBatch embedF ts with
      | none => none
      | some vs => some (v :: vs)

/-- One batch of the engine: the `try` pass, and on failure the per-text
fallback retry of lines 68-74 (each solo failure degrading to `[]`). -/
def processBatch {T α : Type} (embedF : T → Option (List α)) (batch : List T) :
    List (List α) :=
  match tryBatch embedF batch with
  | some vs => vs
  | none => batch.map (generate_embedding embedF)

/-- The consecutive slices `texts[i:i+batch_size]` of the `range(0, len,
batch_size)` loop.  The fuel argument bounds the iteration count; at
`fuel = l.length` and a positive batch size it is exactly the slicing loop
(Python raises on a zero step, so `batch_size = 0` is out of contract and
yields `[]` here). -/
def chunkListAux {α : Type} (bs : Nat) : Nat → List α → List (List α)
  | _, [] => []
  | 0, _ :: _ => []
  | fuel + 1, c :: cs => (c :: cs).take bs :: chunkListAux bs fuel ((c :: cs).drop bs)

/-- Batch partition of a list: `chunkList bs l` lists the consecutive
slices of `l` of size `bs` (last one possibly shorter). -/
def chunkList {α : Type} (bs : Nat) (l : List α) : List (List α) :=
  chunkListAux bs l.length l

/-- `GeminiEmbeddingGenerator.generate_embeddings_batch`
(gemini_embedding_generator.py lines 49-76): slice into batches, run each
batch with per-batch fallback, and concatenate the results in order
(the `time.sleep` pacing carries no data and is not modelled). -/
def generate_embeddings_batch {T α : Type} (embedF : T → Option (List α))
    (texts : List T) (batch_size : Nat) : List (List α) :=
  (chunkList batch_size texts).foldl
    (fun acc batch => acc ++ processBatch embedF batch) []

/-- An item after the embedding stage (gemini_embedding_generator.py lines
90-94): the three `item[...] = ...` keys are present exactly when
`i < len(embeddings)` held, which `Option` records. -/
structure EmbItem (F : Type) where
  item : ProcessedItem F
  embedding : Option (List ℚ)
  embedding_model : Option String
  embedding_dimension : Option Nat

/-- Identifier of the embedding model configured in the generator. -/
def geminiModelName : String := "models/embedding-001"

/-- `GeminiEmbeddingGenerator.process_data_with_embeddings` (lines 78-96):
embed all contents, then attach `embedding`, `embedding_model` and
`embedding_dimension` to every item whose index is below the number of
returned embeddings. -/
def process_data_with_embeddings {F : Type} (model : String)
    (embedF : List Char → Option (List ℚ)) (processed_data : List (ProcessedItem F))
    (batch_size : Nat) : List (EmbItem F) :=
  let texts := processed_data.map (fun it => it.content)
  let embeddings := generate_embeddings_batch embedF texts batch_size
  processed_data.enum.map
    (fun p =>
      match embeddings[p.1]? with
      | some e =>
        { item := p.2, embedding := some e, embedding_model := some model
          embedding_dimension := some e.length }
      | none =>
        { item := p.2, embedding := none, embedding_model := none
          embedding_dimension := none })

/-- Histogram update `d[k] = d.get(k, 0) + 1` over an association list. -/
def histAdd : List (String × Nat) → String → List (String × Nat)
  | [], k => [(k, 1)]
  | (k0, n) :: rest, k =>
    if k0 = k then (k0, n + 1) :: rest else (k0, n) :: histAdd rest k

/-- The summary dictionary of `GeminiEmbeddingGenerator.generate_summary`
(gemini_embedding_generator.py lines 113-139). -/
structure EmbSummary where
  total_items : Nat
  items_with_embeddings : Nat
  embedding_success_rate : ℚ
  embedding_dimension : Nat
  model_used : String
  categories : List (String × Nat)

/-- `GeminiEmbeddingGenerator.generate_summary` (lines 113-139): `none`
models the empty dictionary returned for empty input;
`items_with_embeddings` counts the items in which the `embedding` key is
present, exactly as the source`s `'embedding' in item` does. -/
def generate_summary {F : Type} (model : String) (data : List (EmbItem F)) :
    Option EmbSummary :=
  if data.isEmpty then none
  else
    let total_items := data.length
    let items_with_embeddings :=
      (data.filter (fun it => it.embedding.isSome)).length
    let embedding_dimensions :=
      data.filterMap (fun it => it.embedding.map List.length)
    some
      { total_items := total_items
        items_with_embeddings := items_with_embeddings
        embedding_success_rate :=
          if 0 < total_items then (items_with_embeddings : ℚ) / (total_items : ℚ)
          else 0
        embedding_dimension := embedding_dimensions.headD 0
        model_used := model
        categories :=
          data.foldl (fun h it => histAdd h it.item.metadata.category) [] }

/-- The count of items whose embedding is a present, non-empty vector: the
numerator the spec prescribes for the success rate. -/
def nonemptyEmbeddingCount {F : Type} (data : List (EmbItem F)) : Nat :=
  (data.filter (fun it => !(it.embedding.getD []).isEmpty)).length

/-- Flat metadata stored with a record (chromadb_integration.py lines 57-62). -/
structure ChromaMeta where
  url : List Char
  title : List Char
  category : String
  word_count : Nat
deriving DecidableEq

/-- One stored record of the vector-store collection. -/
structure ChromaEntry where
  eid : List Char
  doc : List Char
  meta : ChromaMeta
deriving DecidableEq

/-- Modelled from the spec: the remote store treats `id` as its natural key,
so adding a record whose id is already present overwrites it in place and
adding a fresh id appends.  (The store itself is the external ChromaDB
client, outside this repository; this is the add operation of the
vector-store boundary in the spec.) -/
def storeAddOne : List ChromaEntry → ChromaEntry → List ChromaEntry
  | [], e => [e]
  | x :: xs, e => if x.eid = e.eid then e :: xs else x :: storeAddOne xs e

/-- Modelled from the spec: one `collection.add(ids, documents, metadatas)`
call, processing its records in order under the keyed-overwrite rule. -/
def collection_add (col : List ChromaEntry) (batch : List ChromaEntry) :
    List ChromaEntry :=
  batch.foldl storeAddOne col

/-- The record built from one processed item by
`AvenChromaDBIntegration.insert_data_into_chroma` (lines 53-63). -/
def toChromaEntry {F : Type} (it : ProcessedItem F) : ChromaEntry :=
  { eid := it.id
    doc := it.content
    meta :=
      { url := it.metadata.url, title := it.metadata.title
        category := it.metadata.category, word_count := it.metadata.word_count } }

/-- `AvenChromaDBIntegration.insert_data_into_chroma` (chromadb_integration.py
lines 48-73): build the parallel id/document/metadata lists, slice them into
batches of `batch_size`, and issue one add call per batch.  (Slicing the
three parallel lists in lockstep is the same as slicing the record list.) -/
def insert_data_into_chroma {F : Type} (col : List ChromaEntry)
    (processed_data : List (ProcessedItem F)) (batch_size : Nat) :
    List ChromaEntry :=
  (chunkList batch_size (processed_data.map toChromaEntry)).foldl
    collection_add col

/-- The statistics dictionary of `get_collection_stats` (lines 85-89);
the collection name is the fixed external name string. -/
structure CollStats where
  total_items : Nat
  categories : List (String × Nat)

/-- `AvenChromaDBIntegration.get_collection_stats` (chromadb_integration.py
lines 75-92): `collection.count()` (modelled from the spec as the number of
stored records) plus a category histogram over all stored metadata. -/
def get_collection_stats (col : List ChromaEntry) : CollStats :=
  { total_items := col.length
    categories := col.foldl (fun h e => histAdd h e.meta.category) [] }

/-- The summary dictionary of `AvenDataPreprocessor.generate_summary`
(data_preprocessor.py lines 207-232), to the depth the pipeline driver
consumes it: chunk and word totals and the category histogram.  (The
financial-term histogram iterates the opaque extracted dictionary `F` and is
never read by the driver.) -/
structure PreSummary where
  total_chunks : Nat
  total_words : Nat
  avg_words_per_chunk : ℚ
  categories : List (String × Nat)

/-- `AvenDataPreprocessor.generate_summary` (data_preprocessor.py lines
207-232): the empty processed-data collection yields the empty dictionary,
modelled as `none`; otherwise the populated summary. -/
def preprocessor_generate_summary {F : Type} (data : List (ProcessedItem F)) :
    Option PreSummary :=
  if data.isEmpty then none
  else
    some
      { total_chunks := data.length
        total_words := (data.map (fun it => it.metadata.word_count)).sum
        avg_words_per_chunk :=
          if 0 < data.length then
            ((data.map (fun it => it.metadata.word_count)).sum : ℚ)
              / (data.length : ℚ)
          else 0
        categories :=
          data.foldl (fun h it => histAdd h it.metadata.category) [] }

/-- The environment variables read by the pipeline (main_pipeline.py and
chromadb_integration.py): `GOOGLE_API_KEY`, `CHROMA_API_KEY`,
`CHROMA_TENANT`, `CHROMA_DATABASE`. -/
structure Env where
  google_api_key : Option String
  chroma_api_key : Option String
  chroma_tenant : Option String
  chroma_database : Option String

/-- `check_api_key` (main_pipeline.py lines 44-52): the Google key must be
set. -/
def check_api_key (env : Env) : Bool := env.google_api_key.isSome

/-- `AvenChromaDBIntegration.__init__` (chromadb_integration.py lines 9-27):
raises `ValueError` when `CHROMA_API_KEY` or `GOOGLE_API_KEY` is unset,
otherwise connects (the tenant and database strings are read but not
validated). -/
def chroma_integration_init (env : Env) : Except String Unit :=
  if env.chroma_api_key.isNone then
    Except.error "CHROMA_API_KEY not found in environment variables."
  else if env.google_api_key.isNone then
    Except.error "GOOGLE_API_KEY not found in environment variables."
  else Except.ok ()

/-- The side-effecting pipeline stages of `run_pipeline`, recorded in
execution order: step 2 (filtering plus preprocessing), step 3 (embedding
generation), step 4 (writing the embeddings files), step 5 (the store
write). -/
inductive StageEvent where
  | preprocessStage
  | embedStage
  | saveEmbeddings
  | storeWrite
deriving DecidableEq

/-- `run_pipeline` (main_pipeline.py lines 54-158): dependency and Google-key
checks, then preprocessing, embedding, file output and the ChromaDB write,
returning the aggregated success flag together with the trace of
side-effecting stages that executed.  The package-import check of
`check_dependencies` is assumed satisfied (the packages are installed), the
financial-info extractor is the parameter `extract`, the remote embedding
call is `embedF`, and the store starts from `storeInit`.  Two caught error
paths shape the control flow: in step 2, when `process_data` produced no
items, `preprocessor.generate_summary()` is the empty dictionary and the
subscript `summary[total_chunks]` of line 78 raises `KeyError` inside the
step-2 `try`, so the driver returns `False` after preprocessing but before
the embedding stage; in step 5, the `ValueError` raised by the store
constructor on a missing Chroma key is caught by the step-5 `except` and
turned into a `False` return, after steps 2-4 have already run. -/
def run_pipeline {F : Type} (env : Env) (extract : List Char → F)
    (embedF : List Char → Option (List ℚ)) (raw : List RawPage)
    (storeInit : List ChromaEntry) : Bool × List StageEvent :=
  if !check_api_key env then (false, [])
  else
    let processed := process_data extract 25 50 5 raw
    match preprocessor_generate_summary processed with
    | none => (false, [StageEvent.preprocessStage])
    | some _ =>
      let dataWithEmb :=
        process_data_with_embeddings geminiModelName embedF processed 50
      let trace :=
        [StageEvent.preprocessStage, StageEvent.embedStage,
          StageEvent.saveEmbeddings]
      match chroma_integration_init env with
      | Except.error _ => (false, trace)
      | Except.ok _ =>
        let _stored :=
          insert_data_into_chroma storeInit
            (dataWithEmb.map (fun it => it.item)) 10
        (true, trace ++ [StageEvent.storeWrite])

/-- Deterministic embedding mock for the C1 witness: fails on the text
`bad`, answers the one-dimensional vector `[1]` otherwise. -/
def embedMockQ (t : String) : Option (List ℚ) :=
  if t = "bad" then none else some [1]

/-- Trivial financial-info extractor used by concrete witnesses. -/
def unitExtract (_s : List Char) : Unit := ()

/-- Concrete environment for the C8 counterexample: the Google key is set,
the Chroma key is absent. -/
def envNoChroma : Env :=
  { google_api_key := some "gk", chroma_api_key := none
    chroma_tenant := none, chroma_database := none }

/-- Concrete environment for the C8 witness: the Google key is absent. -/
def envNoGoogle : Env :=
  { google_api_key := none, chroma_api_key := some "ck"
    chroma_tenant := none, chroma_database := none }

/-- Concrete page content for the C8 counterexample: ten one-letter words,
already normalized, so one filtered page survives the ten-word guard and
preprocessing produces a non-empty collection. -/
def c8Content : List Char := "a b c d e f g h i j".toList

/-- Concrete raw page for the C8 counterexample: passes every filter rule. -/
def c8Page : RawPage :=
  { url := "https://aven.com/faq".toList
    title := "FAQ".toList
    content := c8Content }

/-- A minimal processed item (for the C4 witness and C5 failing input). -/
def sampleItem : ProcessedItem Unit :=
  { id := "https://aven.com/a_0".toList
    content := "sample content".toList
    metadata :=
      { url := "https://aven.com/a".toList, title := "A".toList
        category := productInfoLabel, chunk_index := 0, total_chunks := 1
        chunk_size := 14, word_count := 14, financial_info := () } }

/-- An embedded item carrying a chosen embedding field (C5 failing input). -/
def sampleEmbItem (e : Option (List ℚ)) : EmbItem Unit :=
  { item := sampleItem
    embedding := e
    embedding_model := some geminiModelName
    embedding_dimension := (e.map List.length) }

/-- The C5 failing input: two items that both carry the `embedding` key, one
with the empty vector of a failed solo retry, one with a real vector. -/
def c5FailingData : List (EmbItem Unit) :=
  [sampleEmbItem (some []), sampleEmbItem (some [1])]

/-- The counterexample input of C6: cleaning removes the tag span and leaves
two adjacent spaces, which a second cleaning pass collapses. -/
def c6Input : List Char := ['a', ' ', '<', 'b', '>', ' ', 'c']

/-- Numeric value of a decimal digit string (proof device: the left inverse
of `decRepr`). -/
def decVal (l : List Char) : Nat :=
  l.foldl (fun a c => 10 * a + (c.toNat - 48)) 0

/-- The id invariant maintained while `process_data` accumulates items: the
item at position `i` carries an id built from some url and the counter `i`
(its own append-time accumulator length). -/
def CounterInv {F : Type} (l : List (ProcessedItem F)) : Prop :=
  ∀ i (h : i < l.length), ∃ w, (l.get ⟨i, h⟩).id = unique_id w i

/-- One iteration of the page loop of `process_data` (proof device: the
named form of the fold body of `process_data`). -/
def processStep {F : Type} (extract : List Char → F) (mn mx ov : Nat)
    (acc : List (ProcessedItem F)) (item : RawPage) : List (ProcessedItem F) :=
  let cleaned := clean_content item.content
  if (words cleaned).length < 10 then acc
  else
    appendChunkItems item.url item.title
      (categorize_content item.url item.title cleaned)
      (extract cleaned) (chunk_content cleaned mn mx ov) acc

theorem processBatch_eq_map {T α : Type} (embedF : T → Option (List α))
    (batch : List T) :
    processBatch embedF batch = batch.map (generate_embedding embedF) := by
  induction batch with
  | nil => rfl
  | cons t ts ih =>
    cases het : embedF t with
    | none => simp [processBatch, tryBatch, het]
    | some v =>
      cases hts : tryBatch embedF ts with
      | none => simp [processBatch, tryBatch, het, hts]
      | some vs =>
        have hvs : vs = ts.map (generate_embedding embedF) := by
          rw [← ih]
          simp [processBatch, hts]
        simp [processBatch, tryBatch, het, hts, hvs, generate_embedding]

theorem foldl_append_map {T V : Type} (g : T → V) (chunks : List (List T)) :
    ∀ acc : List V,
      chunks.foldl (fun a b => a ++ b.map g) acc = acc ++ chunks.flatten.map g := by
  induction chunks with
  | nil => intro acc; simp
  | cons b rest ih =>
    intro acc
    simp only [List.foldl_cons, ih, List.flatten_cons, List.map_append,
      List.append_assoc]

theorem chunkListAux_join {α : Type} (bs : Nat) (hbs : 1 ≤ bs) :
    ∀ (fuel : Nat) (l : List α), l.length ≤ fuel →
      (chunkListAux bs fuel l).flatten = l := by
  intro fuel
  induction fuel with
  | zero =>
    intro l hl
    cases l with
    | nil => rfl
    | cons c cs => simp at hl
  | succ n ih =>
    intro l hl
    cases l with
    | nil => rfl
    | cons c cs =>
      show ((c :: cs).take bs :: chunkListAux bs n ((c :: cs).drop bs)).flatten
        = c :: cs
      rw [List.flatten_cons, ih ((c :: cs).drop bs) ?hfuel]
      · exact List.take_append_drop bs (c :: cs)
      case hfuel =>
        simp only [List.length_drop, List.length_cons] at *
        omega

theorem chunkList_join {α : Type} (bs : Nat) (hbs : 1 ≤ bs) (l : List α) :
    (chunkList bs l).flatten = l :=
  chunkListAux_join bs hbs l.length l (Nat.le_refl _)

/-- C1: for every batch size of at least one, the embedding batch engine
returns one vector per input text, and the vector in slot `i` is the remote
result for `texts[i]` (the empty vector exactly when the call for that text
fails, its solo retry therefore failing too under a deterministic mock),
with all other slots holding the successful results in order. -/
theorem c1_embedding_batch_order {T α : Type} (embedF : T → Option (List α))
    (texts : List T) (batch_size : Nat) (hbs : 1 ≤ batch_size) :
    (generate_embeddings_batch embedF texts batch_size).length = texts.length ∧
    generate_embeddings_batch embedF texts batch_size
      = texts.map (generate_embedding embedF) := by
  have hmain : generate_embeddings_batch embedF texts batch_size
      = texts.map (generate_embedding embedF) := by
    unfold generate_embeddings_batch
    simp only [processBatch_eq_map]
    rw [foldl_append_map (generate_embedding embedF) (chunkList batch_size texts) [],
      chunkList_join batch_size hbs texts]
    simp
  exact ⟨by rw [hmain]; simp, hmain⟩

/-- C1 witness: three texts in batches of two, the second text failing: the
output keeps length three, slot order, and an empty vector exactly in the
failing slot. -/
theorem c1_embedding_batch_order_witness :
    1 ≤ 2 ∧ generate_embeddings_batch embedMockQ ["good", "bad", "also"] 2
      = [[1], [], [1]] := by
  refine ⟨by norm_num, ?_⟩
  have h := (c1_embedding_batch_order embedMockQ ["good", "bad", "also"] 2
    (by norm_num)).2
  rw [h]
  simp [generate_embedding, embedMockQ]

/-- C7 counterexample: on empty input the chunker does not return zero
chunks, as the claim demands; it returns the one-element list holding the
empty chunk. -/
theorem c7_chunk_empty_counterexample :
    chunk_content [] 25 50 5 ≠ ([] : List (List Char)) := by
  simp [chunk_content]

/-- C7 amended: for every input and every choice of the (ignored) size
parameters, the chunker returns exactly one chunk, the whole input text:
so at least one chunk for non-empty input, one (empty) chunk rather than
zero for empty input, and concatenation trivially preserves source order. -/
theorem c7_chunk_single (content : List Char) (mn mx ov : Nat) :
    chunk_content content mn mx ov = [content] ∧
    1 ≤ (chunk_content content mn mx ov).length ∧
    (chunk_content content mn mx ov).flatten = content :=
  ⟨rfl, by simp [chunk_content], by simp [chunk_content]⟩

/-- C9: a missing or malformed input file makes `load_data` return the empty
collection instead of raising, and the downstream preprocessing stage then
produces the empty output. -/
theorem c9_load_error_empty {F : Type} (extract : List Char → F)
    (e : LoadError) :
    load_data (Except.error e) = [] ∧
    process_data extract 25 50 5 (load_data (Except.error e)) = [] :=
  ⟨rfl, rfl⟩

theorem trim_isEmpty_or (l : List Char) :
    (l.isEmpty || (trimWS l).isEmpty) = (trimWS l).isEmpty := by
  cases l with
  | nil => rfl
  | cons c cs => simp

/-- C2: the content filter is exactly the claimed retention rule: a page is
kept iff it passes all six rules of `c2Keep`, and since the output is a
`List.filter` of the input, every retained page appears exactly as often as
in the input (once, for distinct pages) and in the original relative
order. -/
theorem c2_filter_characterization : ∀ ps : List RawPage,
    filter_relevant_content ps = ps.filter c2Keep
  | [] => rfl
  | p :: ps => by
    have ih := c2_filter_characterization ps
    simp only [filter_relevant_content, ih, trim_isEmpty_or, List.filter_cons]
    cases hb1 : (trimWS p.content).isEmpty <;>
    cases hb2 : hasSub interferenceSentinel (lowerL p.content) <;>
    cases hb3 : p.url.isEmpty <;>
    cases hb4 : hasSub avenDomain (lowerL p.url) <;>
    cases hb5 : hasSub stagingMark (lowerL p.url) <;>
    cases hb6 : hasSub internalCryptoMark (lowerL p.url) <;>
    cases hb7 : p.title.isEmpty <;>
    cases hb8 : endsList pdfSuffix p.url <;>
    simp [c2Keep, hb1, hb2, hb3, hb4, hb5, hb6, hb7, hb8]

theorem storeAddOne_length_of_mem (col : List ChromaEntry) (e : ChromaEntry)
    (h : e.eid ∈ col.map (fun x => x.eid)) :
    (storeAddOne col e).length = col.length := by
  induction col with
  | nil => simp at h
  | cons x xs ih =>
    by_cases hx : x.eid = e.eid
    · simp [storeAddOne, hx]
    · simp only [List.map_cons, List.mem_cons] at h
      rcases h with h | h
      · exact absurd h.symm hx
      · simp [storeAddOne, hx, ih h]

theorem storeAddOne_mem_ids (col : List ChromaEntry) (e : ChromaEntry)
    (x : List Char) (h : x ∈ col.map (fun y => y.eid)) :
    x ∈ (storeAddOne col e).map (fun y => y.eid) := by
  induction col with
  | nil => simp at h
  | cons y ys ih =>
    simp only [List.map_cons, List.mem_cons] at h
    by_cases hy : y.eid = e.eid
    · rcases h with h | h
      · simp [storeAddOne, hy, h, hy ▸ h]
      · simp [storeAddOne, hy, h]
    · rcases h with h | h
      · simp [storeAddOne, hy, h]
      · simp [storeAddOne, hy, ih h]

theorem storeAddOne_self_mem (col : List ChromaEntry) (e : ChromaEntry) :
    e.eid ∈ (storeAddOne col e).map (fun y => y.eid) := by
  induction col with
  | nil => simp [storeAddOne]
  | cons y ys ih =>
    by_cases hy : y.eid = e.eid
    · simp [storeAddOne, hy]
    · simp only [storeAddOne, if_neg hy, List.map_cons, List.mem_cons]
      exact Or.inr ih

theorem foldl_storeAddOne_preserves (entries : List ChromaEntry) :
    ∀ (col : List ChromaEntry) (x : List Char),
      x ∈ col.map (fun y => y.eid) →
      x ∈ (entries.foldl storeAddOne col).map (fun y => y.eid) := by
  induction entries with
  | nil => intro col x h; simpa using h
  | cons a as ih =>
    intro col x h
    exact ih (storeAddOne col a) x (storeAddOne_mem_ids col a x h)

theorem foldl_storeAddOne_mem (entries : List ChromaEntry) :
    ∀ col, ∀ e ∈ entries,
      e.eid ∈ (entries.foldl storeAddOne col).map (fun y => y.eid) := by
  induction entries with
  | nil => intro col e he; simp at he
  | cons a as ih =>
    intro col e he
    rcases List.mem_cons.mp he with he | he
    · subst he
      exact foldl_storeAddOne_preserves as (storeAddOne col e) e.eid
        (storeAddOne_self_mem col e)
    · exact ih (storeAddOne col a) e he

theorem foldl_storeAddOne_length (entries : List ChromaEntry) :
    ∀ col, (∀ e ∈ entries, e.eid ∈ col.map (fun y => y.eid)) →
      (entries.foldl storeAddOne col).length = col.length := by
  induction entries with
  | nil => intro col _; rfl
  | cons a as ih =>
    intro col h
    have h1 : (as.foldl storeAddOne (storeAddOne col a)).length
        = (storeAddOne col a).length :=
      ih (storeAddOne col a)
        (fun e he => storeAddOne_mem_ids col a e.eid
          (h e (List.mem_cons_of_mem a he)))
    have h2 : (storeAddOne col a).length = col.length :=
      storeAddOne_length_of_mem col a (h a (List.mem_cons_self a as))
    simp only [List.foldl_cons]
    rw [h1, h2]

theorem foldl_collection_add (chunks : List (List ChromaEntry)) :
    ∀ col, chunks.foldl collection_add col
      = chunks.flatten.foldl storeAddOne col := by
  induction chunks with
  | nil => intro col; rfl
  | cons b bs ih =>
    intro col
    simp only [List.foldl_cons, List.flatten_cons, List.foldl_append]
    exact ih (collection_add col b)

theorem insert_eq_foldl {F : Type} (col : List ChromaEntry)
    (items : List (ProcessedItem F)) (bs : Nat) (hbs : 1 ≤ bs) :
    insert_data_into_chroma col items bs
      = (items.map toChromaEntry).foldl storeAddOne col := by
  unfold insert_data_into_chroma
  rw [foldl_collection_add, chunkList_join bs hbs]

/-- C4: the batched store upsert is idempotent under id reuse: inserting the
same records a second time only overwrites, so the total item count reported
by the collection statistics is unchanged after the second insertion. -/
theorem c4_upsert_idempotent {F : Type} (col : List ChromaEntry)
    (items : List (ProcessedItem F)) (bs : Nat) (hbs : 1 ≤ bs) :
    (get_collection_stats
        (insert_data_into_chroma (insert_data_into_chroma col items bs) items
          bs)).total_items
      = (get_collection_stats (insert_data_into_chroma col items bs)).total_items := by
  rw [insert_eq_foldl _ items bs hbs, insert_eq_foldl _ items bs hbs]
  unfold get_collection_stats
  exact foldl_storeAddOne_length (items.map toChromaEntry) _
    (fun e he => foldl_storeAddOne_mem (items.map toChromaEntry) col e he)

/-- C4 witness: one record, batch size one, starting from the empty
collection: the second insertion leaves the reported total unchanged. -/
theorem c4_upsert_idempotent_witness :
    1 ≤ 1 ∧
    (get_collection_stats
        (insert_data_into_chroma (insert_data_into_chroma [] [sampleItem] 1)
          [sampleItem] 1)).total_items
      = (get_collection_stats
          (insert_data_into_chroma [] [sampleItem] 1)).total_items :=
  ⟨Nat.le_refl 1, c4_upsert_idempotent [] [sampleItem] 1 (Nat.le_refl 1)⟩

/-- C5 evaluation at the failing input: both items carry the `embedding`
key, one of them with the empty vector of a failed solo retry.  The code
counts key presence, so it reports success rate 1, while the rate the claim
(and the spec) prescribes, non-empty embeddings over total items, is 1/2. -/
theorem c5_success_rate_eval :
    (generate_summary geminiModelName c5FailingData).map
        (fun s => s.embedding_success_rate) = some 1 ∧
    nonemptyEmbeddingCount c5FailingData = 1 ∧
    c5FailingData.length = 2 ∧
    (1 : ℚ) ≠ 1 / 2 := by
  refine ⟨?_, by decide, rfl, by norm_num⟩
  simp only [generate_summary, c5FailingData, sampleEmbItem, sampleItem]
  norm_num

theorem digitChar_toNat (d : Nat) (h : d < 10) : (digitChar d).toNat = 48 + d := by
  interval_cases d <;> decide

theorem decVal_snoc (l : List Char) (c : Char) :
    decVal (l ++ [c]) = 10 * decVal l + (c.toNat - 48) := by
  unfold decVal
  rw [List.foldl_append]
  rfl

theorem decVal_decRepr (n : Nat) : decVal (decRepr n) = n := by
  induction n using decRepr.induct with
  | case1 n h =>
    rw [decRepr, dif_pos h]
    unfold decVal
    simp [digitChar_toNat n h]
  | case2 n h ih =>
    rw [decRepr, dif_neg h, decVal_snoc, ih,
      digitChar_toNat (n % 10) (Nat.mod_lt n (by omega))]
    omega

theorem decRepr_inj (m n : Nat) (h : decRepr m = decRepr n) : m = n := by
  have hm := decVal_decRepr m
  rw [h, decVal_decRepr] at hm
  omega

theorem decRepr_ne_underscore (n : Nat) : ∀ c ∈ decRepr n, c ≠ '_' := by
  induction n using decRepr.induct with
  | case1 n h =>
    intro c hc heq
    rw [decRepr, dif_pos h] at hc
    simp only [List.mem_singleton] at hc
    subst hc
    have h2 := congrArg Char.toNat heq
    rw [digitChar_toNat n h] at h2
    have h3 : ('_').toNat = 95 := by decide
    omega
  | case2 n h ih =>
    intro c hc heq
    rw [decRepr, dif_neg h] at hc
    rcases List.mem_append.mp hc with hc | hc
    · exact ih c hc heq
    · simp only [List.mem_singleton] at hc
      subst hc
      have h2 := congrArg Char.toNat heq
      rw [digitChar_toNat (n % 10) (Nat.mod_lt n (by omega))] at h2
      have h3 : ('_').toNat = 95 := by decide
      omega

theorem takeWhile_append_of (p : Char → Bool) (xs : List Char) (a : Char)
    (ys : List Char) (hx : ∀ x ∈ xs, p x = true) (ha : p a = false) :
    (xs ++ a :: ys).takeWhile p = xs := by
  induction xs with
  | nil => simp [List.takeWhile_cons, ha]
  | cons x xs ih =>
    rw [List.cons_append, List.takeWhile_cons,
      if_pos (hx x (List.mem_cons_self x xs)),
      ih (fun y hy => hx y (List.mem_cons_of_mem x hy))]

theorem unique_id_counter_inj (u v : List Char) (m n : Nat)
    (h : unique_id u m = unique_id v n) : m = n := by
  have hrev := congrArg List.reverse h
  simp only [unique_id, List.reverse_append, List.reverse_cons,
    List.append_assoc, List.singleton_append] at hrev
  have hm : ∀ x ∈ (decRepr m).reverse, (x != '_') = true := by
    intro x hx
    simpa using decRepr_ne_underscore m x (List.mem_reverse.mp hx)
  have hn : ∀ x ∈ (decRepr n).reverse, (x != '_') = true := by
    intro x hx
    simpa using decRepr_ne_underscore n x (List.mem_reverse.mp hx)
  have ha : (('_' : Char) != '_') = false := by decide
  have ht := takeWhile_append_of (fun c => c != '_') (decRepr m).reverse '_'
    u.reverse hm ha
  have ht2 := takeWhile_append_of (fun c => c != '_') (decRepr n).reverse '_'
    v.reverse hn ha
  rw [hrev, ht2] at ht
  exact (decRepr_inj n m (List.reverse_injective ht)).symm

theorem counterInv_snoc {F : Type} (acc : List (ProcessedItem F))
    (it : ProcessedItem F) (h : CounterInv acc)
    (hit : ∃ w, it.id = unique_id w acc.length) :
    CounterInv (acc ++ [it]) := by
  intro i hi
  rcases Nat.lt_or_ge i acc.length with hlt | hge
  · rcases h i hlt with ⟨w, hw⟩
    refine ⟨w, ?_⟩
    rw [List.get_eq_getElem] at hw ⊢
    rw [List.getElem_append_left hlt]
    exact hw
  · have hi2 : i = acc.length := by
      simp only [List.length_append, List.length_cons, List.length_nil] at hi
      omega
    subst hi2
    rcases hit with ⟨w, hw⟩
    refine ⟨w, ?_⟩
    rw [List.get_eq_getElem, List.getElem_concat_length acc it acc.length rfl]
    exact hw

theorem appendChunkItems_counter {F : Type} (url title : List Char)
    (category : String) (fin : F) (chunks : List (List Char)) :
    ∀ (pairs : List (Nat × List Char)) (acc : List (ProcessedItem F)),
      CounterInv acc →
      CounterInv (pairs.foldl
        (fun a ic =>
          a ++ [{ id := unique_id url a.length
                  content := ic.2
                  metadata :=
                    { url := url, title := title, category := category
                      chunk_index := ic.1, total_chunks := chunks.length
                      chunk_size := ic.2.length
                      word_count := (words ic.2).length
                      financial_info := fin } }])
        acc) := by
  intro pairs
  induction pairs with
  | nil => intro acc h; exact h
  | cons pr prs ih =>
    intro acc h
    simp only [List.foldl_cons]
    exact ih _ (counterInv_snoc acc _ h ⟨url, rfl⟩)

theorem appendChunkItems_counterInv {F : Type} (url title : List Char)
    (category : String) (fin : F) (chunks : List (List Char))
    (acc : List (ProcessedItem F)) (h : CounterInv acc) :
    CounterInv (appendChunkItems url title category fin chunks acc) := by
  unfold appendChunkItems
  exact appendChunkItems_counter url title category fin chunks chunks.enum acc h

theorem process_fold_counter {F : Type} (extract : List Char → F)
    (mn mx ov : Nat) :
    ∀ (pages : List RawPage) (acc : List (ProcessedItem F)), CounterInv acc →
      CounterInv (pages.foldl
        (fun acc item =>
          let cleaned := clean_content item.content
          if (words cleaned).length < 10 then acc
          else
            appendChunkItems item.url item.title
              (categorize_content item.url item.title cleaned)
              (extract cleaned)
              (chunk_content cleaned mn mx ov)
              acc)
        acc) := by
  intro pages
  induction pages with
  | nil => intro acc h; exact h
  | cons pg pgs ih =>
    intro acc h
    simp only [List.foldl_cons]
    apply ih
    by_cases hw : (words (clean_content pg.content)).length < 10
    · simpa [hw] using h
    · simp only [if_neg hw]
      exact appendChunkItems_counterInv _ _ _ _ _ acc h

/-- C3: after any run of `process_data` (for every extractor, parameter
choice and raw input, including inputs in which several pages share one
url), the produced item ids are pairwise distinct: each id is the url
followed by an underscore and the strictly increasing accumulator-length
counter, and the digits-only counter after the last underscore makes the
ids differ. -/
theorem c3_chunk_ids_distinct {F : Type} (extract : List Char → F)
    (mn mx ov : Nat) (raw : List RawPage) :
    ((process_data extract mn mx ov raw).map (fun it => it.id)).Nodup := by
  have hinv : CounterInv (process_data extract mn mx ov raw) := by
    unfold process_data
    exact process_fold_counter extract mn mx ov (filter_relevant_content raw)
      [] (fun i hi => absurd hi (by simp))
  apply List.pairwise_iff_getElem.mpr
  intro i j hi hj hij
  simp only [List.length_map] at hi hj
  rw [List.getElem_map, List.getElem_map]
  rcases hinv i hi with ⟨w1, hw1⟩
  rcases hinv j hj with ⟨w2, hw2⟩
  rw [List.get_eq_getElem] at hw1 hw2
  intro heq
  rw [hw1, hw2] at heq
  exact absurd (unique_id_counter_inj w1 w2 i j heq) (by omega)

theorem process_data_eq_foldl {F : Type} (extract : List Char → F)
    (mn mx ov : Nat) (raw : List RawPage) :
    process_data extract mn mx ov raw
      = (filter_relevant_content raw).foldl (processStep extract mn mx ov) [] :=
  rfl

theorem appendChunkItems_singleton {F : Type} (url title : List Char)
    (category : String) (fin : F) (c : List Char)
    (acc : List (ProcessedItem F)) :
    appendChunkItems url title category fin [c] acc
      = acc ++ [{ id := unique_id url acc.length
                  content := c
                  metadata :=
                    { url := url, title := title, category := category
                      chunk_index := 0, total_chunks := 1
                      chunk_size := c.length
                      word_count := (words c).length
                      financial_info := fin } }] :=
  rfl

theorem processStep_dropped {F : Type} (extract : List Char → F)
    (mn mx ov : Nat) (acc : List (ProcessedItem F)) (pg : RawPage)
    (hw : (words (clean_content pg.content)).length < 10) :
    processStep extract mn mx ov acc pg = acc := by
  unfold processStep
  simp [hw]

theorem processStep_kept {F : Type} (extract : List Char → F)
    (mn mx ov : Nat) (acc : List (ProcessedItem F)) (pg : RawPage)
    (hw : ¬ (words (clean_content pg.content)).length < 10) :
    (∀ it ∈ processStep extract mn mx ov acc pg,
        it ∈ acc ∨
          it.metadata.word_count = (words (clean_content pg.content)).length) ∧
    (processStep extract mn mx ov acc pg).length = acc.length + 1 := by
  unfold processStep
  simp only [chunk_content]
  rw [if_neg hw, appendChunkItems_singleton]
  constructor
  · intro it hit
    rcases List.mem_append.mp hit with hit | hit
    · exact Or.inl hit
    · simp only [List.mem_singleton] at hit
      subst hit
      exact Or.inr rfl
  · simp

theorem process_fold_c10 {F : Type} (extract : List Char → F) (mn mx ov : Nat) :
    ∀ (pages : List RawPage) (acc : List (ProcessedItem F)),
      (∀ it ∈ acc, 10 ≤ it.metadata.word_count) →
      (∀ it ∈ pages.foldl (processStep extract mn mx ov) acc,
          10 ≤ it.metadata.word_count) ∧
      (pages.foldl (processStep extract mn mx ov) acc).length
        = acc.length
          + (pages.filter
              (fun p => 10 ≤ (words (clean_content p.content)).length)).length := by
  intro pages
  induction pages with
  | nil => intro acc h; exact ⟨h, by simp⟩
  | cons pg pgs ih =>
    intro acc h
    by_cases hw : (words (clean_content pg.content)).length < 10
    · have hst := processStep_dropped extract mn mx ov acc pg hw
      have hc : ¬ (10 ≤ (words (clean_content pg.content)).length) := by omega
      refine ⟨?_, ?_⟩
      · intro it hit
        rw [List.foldl_cons, hst] at hit
        exact (ih acc h).1 it hit
      · rw [List.foldl_cons, hst, (ih acc h).2, List.filter_cons]
        simp [hc]
    · rcases processStep_kept extract mn mx ov acc pg hw with ⟨hmem, hlen⟩
      have hacc : ∀ it ∈ processStep extract mn mx ov acc pg,
          10 ≤ it.metadata.word_count := by
        intro it hit
        rcases hmem it hit with hit2 | hit2
        · exact h it hit2
        · omega
      have hge : 10 ≤ (words (clean_content pg.content)).length := by omega
      refine ⟨?_, ?_⟩
      · intro it hit
        rw [List.foldl_cons] at hit
        exact (ih _ hacc).1 it hit
      · have hdec : decide (10 ≤ (words (clean_content pg.content)).length) = true :=
          decide_eq_true hge
        rw [List.foldl_cons, (ih _ hacc).2, hlen, List.filter_cons]
        simp only [hdec, if_true, List.length_cons]
        omega

/-- C10: every item produced by `process_data` has a word count of at least
ten (the count of the cleaned content, which is also the single chunk), and
a page that passes all filter rules contributes no item when its cleaned
content has fewer than ten words: the number of produced items equals the
number of filtered pages with at least ten cleaned words. -/
theorem c10_word_count_floor {F : Type} (extract : List Char → F)
    (mn mx ov : Nat) (raw : List RawPage) :
    (∀ it ∈ process_data extract mn mx ov raw,
        10 ≤ it.metadata.word_count) ∧
    (process_data extract mn mx ov raw).length
      = ((filter_relevant_content raw).filter
          (fun p => 10 ≤ (words (clean_content p.content)).length)).length := by
  rw [process_data_eq_foldl]
  have h := process_fold_c10 extract mn mx ov (filter_relevant_content raw) []
    (fun it hit => absurd hit (List.not_mem_nil it))
  simpa using h

theorem removeTags_id (s : List Char) (h : ∀ c ∈ s, c ≠ '<') :
    removeTags s = s := by
  induction s using removeTags.induct with
  | case1 => simp [removeTags]
  | case2 c cs hcond ih =>
    exact absurd hcond.1 (h c (List.mem_cons_self c cs))
  | case3 c cs hcond ih =>
    rw [removeTags, if_neg hcond]
    exact congrArg _ (ih (fun d hd => h d (List.mem_cons_of_mem _ hd)))

theorem removeTags_mem (s : List Char) : ∀ c ∈ removeTags s, c ∈ s := by
  induction s using removeTags.induct with
  | case1 => simp [removeTags]
  | case2 c cs hcond ih =>
    intro d hd
    rw [removeTags, if_pos hcond] at hd
    have h1 : d ∈ (cs.dropWhile notGt).tail := ih d hd
    have h2 : d ∈ cs.dropWhile notGt := List.mem_of_mem_tail h1
    exact List.mem_cons_of_mem _
      ((List.dropWhile_suffix notGt).sublist.mem h2)
  | case3 c cs hcond ih =>
    intro d hd
    rw [removeTags, if_neg hcond] at hd
    rcases List.mem_cons.mp hd with h1 | h1
    · exact h1 ▸ List.mem_cons_self _ _
    · exact List.mem_cons_of_mem _ (ih d h1)

theorem collapseRuns_mem (p : Char → Bool) (r : Char) (s : List Char) :
    ∀ c ∈ collapseRuns p r s, c = r ∨ (c ∈ s ∧ p c = false) := by
  induction s using collapseRuns.induct p r with
  | case1 => simp [collapseRuns]
  | case2 c cs hp ih =>
    intro d hd
    rw [collapseRuns, if_pos hp] at hd
    rcases List.mem_cons.mp hd with h | h
    · exact Or.inl h
    · rcases ih d h with h2 | ⟨hm, hpc⟩
      · exact Or.inl h2
      · exact Or.inr
          ⟨List.mem_cons_of_mem _ ((List.dropWhile_suffix p).sublist.mem hm), hpc⟩
  | case3 c cs hp ih =>
    intro d hd
    rw [collapseRuns, if_neg hp] at hd
    rcases List.mem_cons.mp hd with h | h
    · subst h
      exact Or.inr ⟨List.mem_cons_self _ _, by simpa using hp⟩
    · rcases ih d h with h2 | ⟨hm, hpc⟩
      · exact Or.inl h2
      · exact Or.inr ⟨List.mem_cons_of_mem _ hm, hpc⟩

theorem collapseRuns_eq_nil_iff (p : Char → Bool) (r : Char) (s : List Char) :
    collapseRuns p r s = [] ↔ s = [] := by
  cases s with
  | nil => simp [collapseRuns]
  | cons c cs =>
    constructor
    · intro h
      rw [collapseRuns] at h
      by_cases hp : p c = true
      · rw [if_pos hp] at h
        exact absurd h (by simp)
      · rw [if_neg hp] at h
        exact absurd h (by simp)
    · intro h
      exact absurd h (by simp)

theorem collapseRuns_head (p : Char → Bool) (r : Char) (s : List Char)
    (hh : ∀ x, s.head? = some x → p x = false) :
    (collapseRuns p r s).head? = s.head? := by
  cases s with
  | nil => simp [collapseRuns]
  | cons c cs =>
    have hc : p c = false := hh c rfl
    rw [collapseRuns, if_neg (by simp [hc])]
    simp

theorem dropWhile_getLast? (p : Char → Bool) :
    ∀ l : List Char, l.dropWhile p ≠ [] →
      (l.dropWhile p).getLast? = l.getLast? := by
  intro l
  induction l with
  | nil => intro h; simp at h
  | cons c cs ih =>
    intro h
    rw [List.dropWhile_cons] at h ⊢
    by_cases hp : p c = true
    · rw [if_pos hp] at h ⊢
      rw [ih h]
      have hcs : cs ≠ [] := by
        intro hn
        rw [hn] at h
        simp at h
      cases hc2 : cs with
      | nil => exact absurd hc2 hcs
      | cons a as => rw [List.getLast?_cons_cons]
    · rw [if_neg hp]

theorem collapseRuns_getLast (p : Char → Bool) (r : Char) :
    ∀ (s : List Char) (d : Char), s.getLast? = some d → p d = false →
      (collapseRuns p r s).getLast? = some d := by
  intro s
  induction s using collapseRuns.induct p r with
  | case1 =>
    intro d hd _
    simp at hd
  | case2 c cs hp ih =>
    intro d hd hpd
    rw [collapseRuns, if_pos hp]
    cases cs with
    | nil =>
      simp only [List.getLast?_singleton, Option.some_inj] at hd
      subst hd
      rw [hp] at hpd
      cases hpd
    | cons a as =>
      rw [List.getLast?_cons_cons] at hd
      have hne : (a :: as).dropWhile p ≠ [] := by
        intro hnil
        have hall := List.dropWhile_eq_nil_iff.mp hnil
        rcases List.mem_getLast?_eq_getLast (Option.mem_def.mpr hd) with
          ⟨hne2, hdl⟩
        have hmem : d ∈ a :: as := hdl ▸ List.getLast_mem hne2
        rw [hall d hmem] at hpd
        cases hpd
      have hd3 : ((a :: as).dropWhile p).getLast? = some d := by
        rw [dropWhile_getLast? p (a :: as) hne, hd]
      have hne3 : collapseRuns p r ((a :: as).dropWhile p) ≠ [] := by
        rw [Ne, collapseRuns_eq_nil_iff]
        exact hne
      cases hL : collapseRuns p r ((a :: as).dropWhile p) with
      | nil => exact absurd hL hne3
      | cons b bs =>
        have hrec := ih d hd3 hpd
        rw [hL] at hrec
        rw [List.getLast?_cons_cons]
        exact hrec
  | case3 c cs hp ih =>
    intro d hd hpd
    rw [collapseRuns, if_neg hp]
    cases cs with
    | nil =>
      simp only [List.getLast?_singleton, Option.some_inj] at hd
      subst hd
      simp [collapseRuns]
    | cons a as =>
      rw [List.getLast?_cons_cons] at hd
      have hne3 : collapseRuns p r (a :: as) ≠ [] := by
        rw [Ne, collapseRuns_eq_nil_iff]
        simp
      cases hL : collapseRuns p r (a :: as) with
      | nil => exact absurd hL hne3
      | cons b bs =>
        have hrec := ih d hd hpd
        rw [hL] at hrec
        rw [List.getLast?_cons_cons]
        exact hrec

theorem collapseRuns_chain (p : Char → Bool) (r : Char) :
    ∀ s : List Char,
      List.Chain' (fun a b => p a = false ∨ p b = false) (collapseRuns p r s) := by
  intro s
  induction s using collapseRuns.induct p r with
  | case1 => simp [collapseRuns]
  | case2 c cs hp ih =>
    rw [collapseRuns, if_pos hp, List.chain'_cons']
    refine ⟨?_, ih⟩
    intro y hy
    right
    have hy2 : (collapseRuns p r (cs.dropWhile p)).head? = some y :=
      Option.mem_def.mp hy
    cases hdw : cs.dropWhile p with
    | nil =>
      rw [hdw] at hy2
      simp [collapseRuns] at hy2
    | cons a as =>
      have ha : p a = false := by
        have hf := List.head?_dropWhile_not p cs
        rw [hdw] at hf
        simpa using hf
      rw [hdw, collapseRuns, if_neg (by simp [ha])] at hy2
      simp only [List.head?_cons, Option.some_inj] at hy2
      rw [← hy2]
      exact ha
  | case3 c cs hp ih =>
    rw [collapseRuns, if_neg hp, List.chain'_cons']
    exact ⟨fun y _ => Or.inl (by simpa using hp), ih⟩

theorem collapseRuns_id_of_not (p : Char → Bool) (r : Char) :
    ∀ s : List Char, (∀ c ∈ s, p c = false) → collapseRuns p r s = s := by
  intro s
  induction s using collapseRuns.induct p r with
  | case1 => intro _; simp [collapseRuns]
  | case2 c cs hp ih =>
    intro h
    rw [h c (List.mem_cons_self c cs)] at hp
    cases hp
  | case3 c cs hp ih =>
    intro h
    rw [collapseRuns, if_neg hp,
      ih (fun d hd => h d (List.mem_cons_of_mem c hd))]

theorem collapseRuns_id_of_chain (p : Char → Bool) (r : Char) :
    ∀ s : List Char,
      List.Chain' (fun a b => p a = false ∨ p b = false) s →
      (∀ c ∈ s, p c = true → c = r) → collapseRuns p r s = s := by
  intro s
  induction s using collapseRuns.induct p r with
  | case1 => intro _ _; simp [collapseRuns]
  | case2 c cs hp ih =>
    intro hch hr
    rw [collapseRuns, if_pos hp]
    have hcr : c = r := hr c (List.mem_cons_self c cs) hp
    cases cs with
    | nil => simp [collapseRuns, hcr]
    | cons a as =>
      have hd1 := (List.chain'_cons'.mp hch).1
      have hch2 := (List.chain'_cons'.mp hch).2
      have ha : p a = false := by
        rcases hd1 a rfl with h1 | h1
        · rw [hp] at h1
          cases h1
        · exact h1
      have hdw : (a :: as).dropWhile p = a :: as := by
        rw [List.dropWhile_cons, if_neg (by simp [ha])]
      rw [hdw] at ih
      rw [hdw, ih hch2 (fun d hd hpd => hr d (List.mem_cons_of_mem c hd) hpd),
        hcr]
  | case3 c cs hp ih =>
    intro hch hr
    rw [collapseRuns, if_neg hp,
      ih (List.chain'_cons'.mp hch).2
        (fun d hd hpd => hr d (List.mem_cons_of_mem c hd) hpd)]

theorem trimWS_mem (s : List Char) : ∀ c ∈ trimWS s, c ∈ s := by
  intro c hc
  unfold trimWS at hc
  rw [List.mem_reverse] at hc
  have h1 : c ∈ (s.dropWhile isWS).reverse :=
    (List.dropWhile_suffix isWS).sublist.mem hc
  rw [List.mem_reverse] at h1
  exact (List.dropWhile_suffix isWS).sublist.mem h1

theorem trimWS_head_not (s : List Char) (h : Char)
    (hh : (trimWS s).head? = some h) : isWS h = false := by
  unfold trimWS at hh
  rw [List.head?_reverse] at hh
  have hne : ((s.dropWhile isWS).reverse).dropWhile isWS ≠ [] := by
    intro hnil
    rw [hnil] at hh
    simp at hh
  rw [dropWhile_getLast? isWS ((s.dropWhile isWS).reverse) hne,
    List.getLast?_reverse] at hh
  have hf := List.head?_dropWhile_not isWS s
  rw [hh] at hf
  simpa using hf

theorem trimWS_getLast_not (s : List Char) (d : Char)
    (hd : (trimWS s).getLast? = some d) : isWS d = false := by
  unfold trimWS at hd
  rw [List.getLast?_reverse] at hd
  have hf := List.head?_dropWhile_not isWS ((s.dropWhile isWS).reverse)
  rw [hd] at hf
  simpa using hf

theorem trimWS_id (l : List Char)
    (hh : ∀ x, l.head? = some x → isWS x = false)
    (hl : ∀ x, l.getLast? = some x → isWS x = false) : trimWS l = l := by
  unfold trimWS
  have h1 : l.dropWhile isWS = l := by
    cases hc : l with
    | nil => simp
    | cons a as =>
      have ha := hh a (by rw [hc]; rfl)
      rw [List.dropWhile_cons, if_neg (by simp [ha])]
  rw [h1]
  have h2 : l.reverse.dropWhile isWS = l.reverse := by
    cases hc : l.reverse with
    | nil => rfl
    | cons a as =>
      have ha : l.getLast? = some a := by
        rw [List.getLast?_eq_head?_reverse, hc]
        rfl
      have ha2 := hl a ha
      rw [List.dropWhile_cons, if_neg (by simp [ha2])]
  rw [h2, List.reverse_reverse]

theorem cleanFinal_subset (l : List Char) : ∀ c ∈ cleanFinal l, c ∈ l := by
  intro c hc
  unfold cleanFinal at hc
  by_cases hg : (l.isEmpty || l.all isWS) = true
  · rw [if_pos hg] at hc
    simp at hc
  · rw [if_neg hg] at hc
    exact hc

theorem clean_content_mem_allowed (s : List Char) :
    ∀ c ∈ clean_content s, allowedChar c = true := by
  intro c hc
  unfold clean_content at hc
  by_cases hs : s.isEmpty = true
  · rw [if_pos hs] at hc
    simp at hc
  · rw [if_neg hs] at hc
    exact List.of_mem_filter (cleanFinal_subset _ c hc)

theorem clean_content_of_allowed (x : List Char)
    (hx : ∀ c ∈ x, allowedChar c = true) :
    clean_content x = cleanFinal (collapseRuns isWS ' ' (trimWS x)) := by
  by_cases hxe : x.isEmpty = true
  · have hxnil : x = [] := by
      cases x with
      | nil => rfl
      | cons a as => simp at hxe
    subst hxnil
    simp [clean_content, trimWS, cleanFinal, collapseRuns]
  · unfold clean_content
    rw [if_neg hxe]
    have hchars : ∀ c ∈ collapseRuns isWS ' ' (trimWS x),
        c = ' ' ∨ (isWS c = false ∧ c ∈ x) := by
      intro c hc
      rcases collapseRuns_mem isWS ' ' (trimWS x) c hc with h | ⟨hm, hp⟩
      · exact Or.inl h
      · exact Or.inr ⟨hp, trimWS_mem x c hm⟩
    have hallowed : ∀ c ∈ collapseRuns isWS ' ' (trimWS x),
        allowedChar c = true := by
      intro c hc
      rcases hchars c hc with h | ⟨_, hm⟩
      · subst h
        decide
      · exact hx c hm
    have hnl : ∀ c ∈ collapseRuns isWS ' ' (trimWS x), nlP c = false := by
      intro c hc
      rcases hchars c hc with h | ⟨hw, _⟩
      · subst h
        decide
      · refine Bool.eq_false_iff.mpr ?_
        intro hb
        have hcn : c = '\n' := by simpa [nlP] using hb
        subst hcn
        exact absurd hw (by decide)
    have htab : ∀ c ∈ collapseRuns nlP ' ' (collapseRuns isWS ' ' (trimWS x)),
        tabP c = false := by
      intro c hc
      rcases collapseRuns_mem nlP ' ' _ c hc with h | ⟨hm, _⟩
      · subst h
        decide
      · rcases hchars c hm with h | ⟨hw, _⟩
        · subst h
          decide
        · refine Bool.eq_false_iff.mpr ?_
          intro hb
          have hct : c = '\t' := by simpa [tabP] using hb
          subst hct
          exact absurd hw (by decide)
    rw [collapseRuns_id_of_not nlP ' ' _ hnl]
    rw [collapseRuns_id_of_not tabP ' ' _
      (fun c hc => htab c (by rwa [collapseRuns_id_of_not nlP ' ' _ hnl]))]
    have hlt : ∀ c ∈ collapseRuns isWS ' ' (trimWS x), c ≠ '<' := by
      intro c hc heq
      subst heq
      rcases hchars _ hc with h | ⟨_, hm⟩
      · cases h
      · exact absurd (hx _ hm) (by decide)
    rw [removeTags_id _ hlt]
    rw [List.filter_eq_self.mpr hallowed]

theorem clean_clean_fixed (x : List Char)
    (hx : ∀ c ∈ x, allowedChar c = true) :
    clean_content (clean_content x) = clean_content x := by
  rw [clean_content_of_allowed x hx]
  by_cases hg : ((collapseRuns isWS ' ' (trimWS x)).isEmpty
      || (collapseRuns isWS ' ' (trimWS x)).all isWS) = true
  · have h0 : cleanFinal (collapseRuns isWS ' ' (trimWS x)) = [] := by
      unfold cleanFinal
      rw [if_pos hg]
    rw [h0]
    simp [clean_content]
  · have h0 : cleanFinal (collapseRuns isWS ' ' (trimWS x))
        = collapseRuns isWS ' ' (trimWS x) := by
      unfold cleanFinal
      rw [if_neg hg]
    rw [h0]
    have hall : ∀ c ∈ collapseRuns isWS ' ' (trimWS x),
        allowedChar c = true := by
      intro c hc
      rcases collapseRuns_mem isWS ' ' (trimWS x) c hc with h | ⟨hm, _⟩
      · subst h
        decide
      · exact hx c (trimWS_mem x c hm)
    rw [clean_content_of_allowed _ hall]
    have hheads : ∀ y, (trimWS x).head? = some y → isWS y = false :=
      fun y hy => trimWS_head_not x y hy
    have htrim : trimWS (collapseRuns isWS ' ' (trimWS x))
        = collapseRuns isWS ' ' (trimWS x) := by
      apply trimWS_id
      · intro a ha
        rw [collapseRuns_head isWS ' ' (trimWS x) hheads] at ha
        exact trimWS_head_not x a ha
      · intro a ha
        cases ht : (trimWS x).getLast? with
        | none =>
          have htnil : trimWS x = [] := List.getLast?_eq_none_iff.mp ht
          rw [htnil] at ha
          simp [collapseRuns] at ha
        | some d =>
          have hdns := trimWS_getLast_not x d ht
          have hEq := collapseRuns_getLast isWS ' ' (trimWS x) d ht hdns
          rw [hEq] at ha
          have had : d = a := by simpa using ha
          rw [← had]
          exact hdns
    rw [htrim]
    have hcoll : collapseRuns isWS ' ' (collapseRuns isWS ' ' (trimWS x))
        = collapseRuns isWS ' ' (trimWS x) := by
      apply collapseRuns_id_of_chain isWS ' ' _
        (collapseRuns_chain isWS ' ' (trimWS x))
      intro c hc hpc
      rcases collapseRuns_mem isWS ' ' (trimWS x) c hc with h | ⟨_, hp⟩
      · exact h
      · rw [hp] at hpc
        cases hpc
    rw [hcoll]
    exact h0

/-- C6 counterexample: the normalizer is not idempotent.  On the input
`a <b> c` one pass removes the tag span and leaves the two spaces that
surrounded it adjacent, and a second pass collapses them, so the two results
differ. -/
theorem c6_clean_not_idempotent :
    clean_content (clean_content c6Input) ≠ clean_content c6Input := by
  have h1 : clean_content c6Input = ['a', ' ', ' ', 'c'] := by
    simp [clean_content, c6Input, trimWS, cleanFinal, collapseRuns, removeTags,
      isWS, allowedChar, nlP, tabP, notGt]
  have h2 : clean_content ['a', ' ', ' ', 'c'] = ['a', ' ', 'c'] := by
    simp [clean_content, trimWS, cleanFinal, collapseRuns, removeTags,
      isWS, allowedChar, nlP, tabP, notGt]
  rw [h1, h2]
  decide

/-- C6 amended: the normalizer is stable from the second application on: for
every string, a third cleaning pass returns the second pass unchanged
(equivalently, `clean_content` composed with itself is idempotent).  The
counterexample only breaks the first pass, whose tag and character removals
can leave adjacent or leading whitespace behind. -/
theorem c6_clean_stable_after_first_pass (s : List Char) :
    clean_content (clean_content (clean_content s))
      = clean_content (clean_content s) :=
  clean_clean_fixed (clean_content s) (clean_content_mem_allowed s)

theorem c8Content_clean : clean_content c8Content = c8Content := by
  simp [clean_content, c8Content, trimWS, cleanFinal, collapseRuns,
    removeTags, isWS, allowedChar, nlP, tabP, notGt]

theorem c8Content_words : (words c8Content).length = 10 := by
  simp [words, c8Content, isWS, notWS]

theorem c8_processed_not_empty :
    (process_data unitExtract 25 50 5 [c8Page]).isEmpty = false := by
  rw [show process_data unitExtract 25 50 5 [c8Page]
      = (filter_relevant_content [c8Page]).foldl
          (processStep unitExtract 25 50 5) [] from rfl]
  have hfil : filter_relevant_content [c8Page] = [c8Page] := by decide
  rw [hfil]
  simp only [List.foldl_cons, List.foldl_nil]
  have hw : ¬ (words (clean_content c8Page.content)).length < 10 := by
    show ¬ (words (clean_content c8Content)).length < 10
    rw [c8Content_clean, c8Content_words]
    omega
  have hlen := (processStep_kept unitExtract 25 50 5 [] c8Page hw).2
  cases hL : processStep unitExtract 25 50 5 [] c8Page with
  | nil =>
    rw [hL] at hlen
    simp at hlen
  | cons a as => rfl

theorem c8_run_eval :
    run_pipeline envNoChroma unitExtract (fun _ => none) [c8Page] []
      = (false, [StageEvent.preprocessStage, StageEvent.embedStage,
          StageEvent.saveEmbeddings]) := by
  obtain ⟨ps, hps⟩ : ∃ ps, preprocessor_generate_summary
      (process_data unitExtract 25 50 5 [c8Page]) = some ps := by
    unfold preprocessor_generate_summary
    rw [c8_processed_not_empty]
    exact ⟨_, rfl⟩
  simp only [run_pipeline]
  rw [if_neg (by decide), hps]
  rfl

/-- C8 counterexample: with the Google key present, the Chroma key absent,
and a raw input whose single page passes every filter rule with ten cleaned
words, the pipeline does surface a fatal configuration error, but only
after the filtering/preprocessing stage, the embedding stage and the
embeddings file write have all executed, contradicting the claim that no
stage runs before the error when either key is missing. -/
theorem c8_chroma_key_after_stages :
    envNoChroma.chroma_api_key = none ∧
    (run_pipeline envNoChroma unitExtract (fun _ => none) [c8Page] []).1
      = false ∧
    StageEvent.preprocessStage
      ∈ (run_pipeline envNoChroma unitExtract (fun _ => none) [c8Page] []).2 ∧
    StageEvent.embedStage
      ∈ (run_pipeline envNoChroma unitExtract (fun _ => none) [c8Page] []).2 := by
  refine ⟨rfl, ?_, ?_, ?_⟩ <;> rw [c8_run_eval] <;> decide

/-- C8 amended: a missing key of either service is still fatal (the driver
returns failure) and the store is never written; a missing embedding-service
key is surfaced before any stage runs.  A missing vector-store key, however,
is surfaced only at the store stage: whenever preprocessing produces at
least one item, the filtering/preprocessing stage, the embedding stage and
the embeddings file write all execute before the error.  (With empty
processed data the driver already fails during the step-2 summary display,
after preprocessing alone, so only the preprocessing stage runs.) -/
theorem c8_credentials_amended {F : Type} (env : Env)
    (extract : List Char → F) (embedF : List Char → Option (List ℚ))
    (raw : List RawPage) (storeInit : List ChromaEntry)
    (h : env.google_api_key = none ∨ env.chroma_api_key = none) :
    (run_pipeline env extract embedF raw storeInit).1 = false ∧
    StageEvent.storeWrite ∉ (run_pipeline env extract embedF raw storeInit).2 ∧
    (env.google_api_key = none →
      (run_pipeline env extract embedF raw storeInit).2 = []) ∧
    (env.google_api_key ≠ none → env.chroma_api_key = none →
      process_data extract 25 50 5 raw ≠ [] →
      (run_pipeline env extract embedF raw storeInit).2
        = [StageEvent.preprocessStage, StageEvent.embedStage,
            StageEvent.saveEmbeddings]) := by
  cases hg : env.google_api_key with
  | none =>
    have hrun : run_pipeline env extract embedF raw storeInit = (false, []) := by
      simp [run_pipeline, check_api_key, hg]
    refine ⟨by rw [hrun], by rw [hrun]; simp, fun _ => by rw [hrun], ?_⟩
    intro hgn _ _
    exact absurd rfl hgn
  | some k =>
    rcases h with h | h
    · rw [hg] at h
      exact absurd h (by simp)
    · have hcheck : ¬ ((!check_api_key env) = true) := by
        simp [check_api_key, hg]
      have hinit : chroma_integration_init env
          = Except.error "CHROMA_API_KEY not found in environment variables." := by
        simp [chroma_integration_init, h]
      cases hsum : preprocessor_generate_summary
          (process_data extract 25 50 5 raw) with
      | none =>
        have hempty : process_data extract 25 50 5 raw = [] := by
          by_contra hne
          have hie : (process_data extract 25 50 5 raw).isEmpty = false := by
            cases hpd : process_data extract 25 50 5 raw with
            | nil => exact absurd hpd hne
            | cons a as => rfl
          unfold preprocessor_generate_summary at hsum
          rw [hie] at hsum
          simp at hsum
        have hrun : run_pipeline env extract embedF raw storeInit
            = (false, [StageEvent.preprocessStage]) := by
          simp only [run_pipeline]
          rw [if_neg hcheck, hsum]
        refine ⟨by rw [hrun], by rw [hrun]; simp, ?_, ?_⟩
        · intro hgn
          exact absurd hgn (by simp)
        · intro _ _ hne
          exact absurd hempty hne
      | some ps =>
        have hrun : run_pipeline env extract embedF raw storeInit
            = (false, [StageEvent.preprocessStage, StageEvent.embedStage,
                StageEvent.saveEmbeddings]) := by
          simp only [run_pipeline]
          rw [if_neg hcheck, hsum, hinit]
        refine ⟨by rw [hrun], by rw [hrun]; simp, ?_, fun _ _ _ => by rw [hrun]⟩
        intro hgn
        exact absurd hgn (by simp)

/-- C8 witness: with no Google key, the pipeline fails with an empty stage
trace and no store write. -/
theorem c8_credentials_amended_witness :
    (envNoGoogle.google_api_key = none ∨ envNoGoogle.chroma_api_key = none) ∧
    ((run_pipeline envNoGoogle unitExtract (fun _ => none) [] []).1 = false ∧
      StageEvent.storeWrite
        ∉ (run_pipeline envNoGoogle unitExtract (fun _ => none) [] []).2 ∧
      (envNoGoogle.google_api_key = none →
        (run_pipeline envNoGoogle unitExtract (fun _ => none) [] []).2 = []) ∧
      (envNoGoogle.google_api_key ≠ none →
        envNoGoogle.chroma_api_key = none →
        process_data unitExtract 25 50 5 [] ≠ [] →
        (run_pipeline envNoGoogle unitExtract (fun _ => none) [] []).2
          = [StageEvent.preprocessStage, StageEvent.embedStage,
              StageEvent.saveEmbeddings])) :=
  ⟨Or.inl rfl,
    c8_credentials_amended envNoGoogle unitExtract (fun _ => none) [] []
      (Or.inl rfl)⟩
